import Mathlib

/-!
Verification development for the `extract` package of mserve: the
declarative extraction-and-remapping engine.  Go values of type
`interface{}` that flow through the engine (strings, ints, bools,
`[]interface{}` slices and `map[string]interface{}` / `Result` maps)
are embedded as the inductive type `Value`; Go maps are embedded as
association lists whose insert replaces the first binding in place.
-/

namespace Extract

/-- Embedding of the dynamic `interface{}` values handled by the engine:
`nil`, `string`, `int`, `bool`, `[]interface{}` and
`map[string]interface{}` (a.k.a. `Result`). -/
inductive Value : Type where
  | vNull  : Value
  | vStr   : String → Value
  | vInt   : Int → Value
  | vBool  : Bool → Value
  | vList  : List Value → Value
  | vObj   : List (String × Value) → Value
deriving Repr

/-- `Transforms` (extract/model.go): a regex rewrite/split step. -/
structure Transforms : Type where
  Match   : String
  Split   : Bool
  Replace : String
deriving DecidableEq, Repr

/-- Go `strconv`-style conversions used by `safeString`. -/
def safeString : Value → String
  | .vStr s => s
  | .vInt n => toString n
  | _       => ""

/-- The Go code compiles `Transforms.Match` with `regexp.Compile` and then
uses `Split` / `ReplaceAllString`.  The regex engine is an external
collaborator (Go's `regexp` package); it is embedded as an explicit
operation table so that the transform pipeline stays executable. -/
structure RegexOps : Type where
  /-- does `regexp.Compile` succeed on this pattern -/
  compileOk  : String → Bool
  /-- `r.Split(input, -1)` for the compiled pattern -/
  rsplit     : String → String → List String
  /-- `r.ReplaceAllString(input, replacement)` -/
  replaceAll : String → String → String → String

/-- `applyTransform` (part_012 lines 539-568): runs every transform in
order over the scalar; `Split` appends the non-empty fragments to `o`,
`Replace` rewrites `ss` in place; an uncompilable pattern is skipped.
Finally `o` is returned when non-empty, else the (rewritten) scalar. -/
def applyTransform (R : RegexOps) (raw : Value) (t : List Transforms) : List Value :=
  if t.isEmpty then [raw]
  else
    let ss := safeString raw
    if ss = "" then [raw]
    else
      let step := fun (acc : List Value × String) (tr : Transforms) =>
        if ! R.compileOk tr.Match then acc
        else if tr.Split then
          (acc.1 ++ ((R.rsplit tr.Match acc.2).filter (fun v => v.length > 0)).map Value.vStr,
           acc.2)
        else (acc.1, R.replaceAll tr.Match acc.2 tr.Replace)
      let fin := t.foldl step ([], ss)
      if fin.1.length > 0 then fin.1 else [Value.vStr fin.2]

/-- `applyTransforms` (part_012 lines 530-537): element-wise transform with
results concatenated in order. -/
def applyTransforms (R : RegexOps) (raw : List Value) (t : List Transforms) : List Value :=
  raw.foldl (fun o r => o ++ applyTransform R r t) []

/-- `flattenList` (part_012 lines 391-401): recursively flattens a slice,
splicing every `[]interface{}` element and recursing into it. -/
def flattenList : List Value → List Value
  | [] => []
  | .vList xs :: rest => flattenList xs ++ flattenList rest
  | v :: rest => v :: flattenList rest

/-- If `pat` is a prefix of `s`, strip it and return the remainder. -/
def dropPre? : List Char → List Char → Option (List Char)
  | [], s => some s
  | _ :: _, [] => none
  | p :: ps, c :: cs => if c = p then dropPre? ps cs else none

/-- Fuel-driven split of `s` on every occurrence of the literal `pat`
(leftmost, non-overlapping), `acc` holding the current fragment reversed. -/
def litSplitGo (pat : List Char) : Nat → List Char → List Char → List (List Char)
  | _, [], acc => [acc.reverse]
  | 0, rest, acc => [acc.reverse ++ rest]
  | fuel + 1, c :: cs, acc =>
    match dropPre? pat (c :: cs) with
    | some rest => acc.reverse :: litSplitGo pat fuel rest []
    | none => litSplitGo pat fuel cs (c :: acc)

/-- Split on a non-empty literal pattern, as Go `regexp.Split` behaves on a
metacharacter-free pattern. -/
def litSplit (pat s : String) : List String :=
  if pat = "" then [s]
  else (litSplitGo pat.data (s.data.length + 1) s.data []).map String.mk

/-- Fuel-driven replacement of every occurrence of the literal `pat` by
`rep` (leftmost, non-overlapping). -/
def litReplGo (pat rep : List Char) : Nat → List Char → List Char
  | _, [] => []
  | 0, s => s
  | fuel + 1, c :: cs =>
    match dropPre? pat (c :: cs) with
    | some rest => rep ++ litReplGo pat rep fuel rest
    | none => c :: litReplGo pat rep fuel cs

/-- Replace every occurrence of a non-empty literal pattern, as Go
`regexp.ReplaceAllString` behaves on a metacharacter-free pattern with a
capture-group-free replacement. -/
def litReplace (pat s rep : String) : String :=
  if pat = "" then s
  else String.mk (litReplGo pat.data rep.data (s.data.length + 1) s.data)

/-- A concrete regex-engine instance for non-empty literal
(regex-metacharacter-free) patterns, on which Go's `regexp` behaves as
plain substring split/replace.  Used to evaluate the development on
concrete inputs. -/
def litRegex : RegexOps where
  compileOk  := fun _ => true
  rsplit     := litSplit
  replaceAll := fun pat s rep => litReplace pat s rep

example : applyTransform litRegex (.vStr "a//b") [⟨"//", true, ""⟩] = [.vStr "a", .vStr "b"] := rfl

example : litReplace "//" "//x" "https://" = "https://x" := rfl

example : flattenList [.vList [.vList [.vStr "a"]]] = [.vStr "a"] := by simp [flattenList]

/-- `ExtractionRule` (extract/model.go lines 19-30): one node of the
extraction-rule tree.  A single-constructor inductive because the node is
recursive through `Children`. -/
inductive XRule : Type where
  | mk (Name Selector Attr : String) (Multiple Download Visit Flatten : Bool)
       (SaveDir : String) (Children : List XRule) (Transforms : List Transforms) : XRule
deriving Repr

def XRule.Name : XRule → String
  | .mk n _ _ _ _ _ _ _ _ _ => n

def XRule.Selector : XRule → String
  | .mk _ s _ _ _ _ _ _ _ _ => s

def XRule.Attr : XRule → String
  | .mk _ _ a _ _ _ _ _ _ _ => a

def XRule.Multiple : XRule → Bool
  | .mk _ _ _ m _ _ _ _ _ _ => m

def XRule.Download : XRule → Bool
  | .mk _ _ _ _ d _ _ _ _ _ => d

def XRule.Visit : XRule → Bool
  | .mk _ _ _ _ _ v _ _ _ _ => v

def XRule.Flatten : XRule → Bool
  | .mk _ _ _ _ _ _ f _ _ _ => f

def XRule.SaveDir : XRule → String
  | .mk _ _ _ _ _ _ _ s _ _ => s

def XRule.Children : XRule → List XRule
  | .mk _ _ _ _ _ _ _ _ c _ => c

def XRule.Transforms : XRule → List Transforms
  | .mk _ _ _ _ _ _ _ _ _ t => t

/-- The default transform installed by `applyRule` when a rule has none:
rewrite protocol-relative URLs. -/
def defaultTransform : Transforms := ⟨"^//", false, "https://"⟩

mutual

/-- Structural size of a rule tree, ignoring everything except the
`Children` nesting.  The in-place mutation `applyRule` performs (filling an
empty `Transforms` list) preserves this size, which is what makes the
recursion in the evaluator well-founded. -/
def rsize : XRule → Nat
  | .mk _ _ _ _ _ _ _ _ cs _ => 1 + rsizeL cs

def rsizeL : List XRule → Nat
  | [] => 0
  | c :: cs => rsize c + rsizeL cs

end

theorem rsize_pos (r : XRule) : 1 ≤ rsize r := by
  cases r with
  | mk n s a m d v f sd cs ts => simp [rsize]

/-- The document/selection collaborator (goquery) and the other external
collaborators of the Rule Evaluator, embedded as an explicit interface.
Element handles are plain naturals.  `find` is goquery `Find` (which on an
empty selection always yields an empty selection), `attr`/`text` read an
attribute / the trimmed-to-be text, `parseURL` is `base.Parse` returning
the resolved absolute URL string, and `fetch` is the `Fetcher` collaborator
returning the fetched document's root selection (or `none` on error). -/
structure Env : Type where
  find : List Nat → String → List Nat
  attr : Nat → String → Option String
  text : Nat → String
  parseURL : String → Option String
  fetch : String → Option (List Nat)
  find_nil : ∀ q, find [] q = []

/-- Go `raw, _ := s.Attr(name)`: a missing attribute reads as `""`. -/
def getAttr (E : Env) (e : Nat) (a : String) : String :=
  (E.attr e a).getD ""

/-- Write into a `Result` map embedded as an association list: replace the
first binding of the key in place, else append. -/
def objInsert : List (String × Value) → String → Value → List (String × Value)
  | [], k, v => [(k, v)]
  | (k', v') :: rest, k, v =>
    if k' = k then (k, v) :: rest else (k', v') :: objInsert rest k v

/-- Perform a sequence of `rec[key] = value` writes in order. -/
def recWrites (m : List (String × Value)) (kvs : List (String × Value)) :
    List (String × Value) :=
  kvs.foldl (fun m kv => objInsert m kv.1 kv.2) m

mutual

/-- `applyRule` (part_012 lines 405-528).  Because the Go function mutates
the rule in place (lines 406-413 replace an empty `Transforms` list of the
caller's rule by the default protocol-relative rewrite, and the recursive
calls do the same to the child rules), the embedding returns the produced
value together with the rule as it stands after the call.  The rule's
structural size is carried in the result type so the recursion through the
threaded-through children stays well-founded. -/
def applyRule (E : Env) (R : RegexOps) (sel : List Nat) (rule : XRule) :
    Value × {r' : XRule // rsize r' = rsize rule} :=
  match rule with
  | .mk nm sl ar mu dl vi fl sd cs ts =>
    let ts := if ts.isEmpty then [defaultTransform] else ts
    -- line 415: `sel = sel.Clone()` — cloning has no observable effect here
    if cs.isEmpty then
      -- leaf rule (lines 499-527)
      if mu then
        let vals := (E.find sel sl).map (fun e =>
          if ar ≠ "" then
            let raw := getAttr E e ar
            let raw := if (dl || vi) ∧ raw ≠ "" then
                         match E.parseURL raw with
                         | some u2 => u2
                         | none => raw
                       else raw
            Value.vStr raw
          else Value.vStr (E.text e).trim)
        let vals := if fl then flattenList vals else vals
        (Value.vList (applyTransforms R vals ts),
         ⟨.mk nm sl ar mu dl vi fl sd cs ts, rfl⟩)
      else
        -- `Find(...).First()` of an empty selection reads attribute and
        -- text as ""
        let raw := match (E.find sel sl).head? with
          | some e => if ar ≠ "" then getAttr E e ar else (E.text e).trim
          | none => ""
        (Value.vList (applyTransform R (.vStr raw) ts),
         ⟨.mk nm sl ar mu dl vi fl sd cs ts, rfl⟩)
    else
      if mu then
        -- nested rules, Multiple (lines 418-474)
        match evalMatches E R ar dl vi (E.find sel sl) cs with
        | (list, ⟨cs', h⟩) =>
          (Value.vList (applyTransforms R list ts),
           ⟨.mk nm sl ar mu dl vi fl sd cs' ts, by simp [rsize, h]⟩)
      else
        -- nested rules, single (lines 476-496)
        let e? := (E.find sel sl).head?
        let rec0 : List (String × Value) :=
          if ar ≠ "" then
            let raw := match e? with | some e => getAttr E e ar | none => ""
            if (dl || vi) ∧ raw ≠ "" then
              match E.parseURL raw with
              | some u2 => [(ar, Value.vStr u2)]
              | none => [(ar, Value.vList (applyTransform R (.vStr raw) ts))]
            else [(ar, Value.vList (applyTransform R (.vStr raw) ts))]
          else []
        let scope := match e? with | some e => [e] | none => []
        match evalChildren E R scope cs with
        | (kvs, ⟨cs', h⟩) =>
          (Value.vObj (recWrites rec0 kvs),
           ⟨.mk nm sl ar mu dl vi fl sd cs' ts, by simp [rsize, h]⟩)
termination_by (3 * rsize rule, 0)
decreasing_by
  all_goals simp_wf
  all_goals simp only [Prod.lex_iff, rsize, rsizeL, true_and, and_true] at *
  all_goals omega

/-- The record-level attribute block of the Each-loop body (lines
426-461): reads the attribute, resolves/visits as flagged, and yields the
initial `rec` writes together with the child rules' state (changed only
when a successful Visit evaluated them against the fetched document). -/
def evalStep1 (E : Env) (R : RegexOps) (ar : String) (dl vi : Bool) (e : Nat)
    (cs : List XRule) :
    List (String × Value) × {cs' : List XRule // rsizeL cs' = rsizeL cs} :=
  if ar ≠ "" then
    let raw := getAttr E e ar
    if (dl || vi) ∧ raw ≠ "" then
      match E.parseURL raw with
      | some u2 =>
        if vi then
          match E.fetch u2 with
          | some docSel =>
            match evalChildren E R docSel cs with
            | (kvs, cs') => (recWrites [] kvs, cs')
          | none => ([(ar, Value.vStr u2)], ⟨cs, rfl⟩)
        else ([(ar, Value.vStr u2)], ⟨cs, rfl⟩)
      | none => ([(ar, Value.vStr raw)], ⟨cs, rfl⟩)
    else ([(ar, Value.vStr raw)], ⟨cs, rfl⟩)
  else ([], ⟨cs, rfl⟩)
termination_by (3 * rsizeL cs + 2, 0)
decreasing_by
  all_goals simp_wf
  all_goals simp only [Prod.lex_iff, rsize, rsizeL, true_and, and_true] at *
  all_goals omega

/-- The `if !rule.Visit` child loop of the Each-loop body (lines 462-471):
evaluates the children against the matched element itself and extends the
record. -/
def evalStep2 (E : Env) (R : RegexOps) (vi : Bool) (e : Nat)
    (rec1 : List (String × Value)) (cs1 : List XRule) :
    List (String × Value) × {cs' : List XRule // rsizeL cs' = rsizeL cs1} :=
  if vi then (rec1, ⟨cs1, rfl⟩)
  else
    match evalChildren E R [e] cs1 with
    | (kvs, cs') => (recWrites rec1 kvs, cs')
termination_by (3 * rsizeL cs1 + 2, 0)
decreasing_by
  all_goals simp_wf
  all_goals simp only [Prod.lex_iff, rsize, rsizeL, true_and, and_true] at *
  all_goals omega

/-- The `sel.Find(rule.Selector).Each` loop of the Multiple+Children
branch (lines 422-473): one record per matched element, threading the
(possibly mutated) child rules through the iterations.  The `output` slice
of lines 435-446 is never appended to (the append is commented out in the
source), so its `len(output) > 1` write never fires and is not modelled. -/
def evalMatches (E : Env) (R : RegexOps) (ar : String) (dl vi : Bool) :
    (ms : List Nat) → (cs : List XRule) →
    List Value × {cs' : List XRule // rsizeL cs' = rsizeL cs}
  | [], cs => ([], ⟨cs, rfl⟩)
  | e :: ms, cs =>
    match evalStep1 E R ar dl vi e cs with
    | (rec1, ⟨cs1, h1⟩) =>
      match evalStep2 E R vi e rec1 cs1 with
      | (rec2, ⟨cs2, h2⟩) =>
        match evalMatches E R ar dl vi ms cs2 with
        | (list, ⟨cs3, h3⟩) =>
          (Value.vObj rec2 :: list, ⟨cs3, by rw [h3, h2, h1]⟩)
termination_by ms cs => (3 * rsizeL cs + 2, ms.length + 1)
decreasing_by
  all_goals simp_wf
  all_goals simp only [Prod.lex_iff, rsize, rsizeL, List.length_cons, true_and, and_true] at *
  all_goals omega

/-- The per-record child-rule loop (`rec[child.Name] = v` for each child in
order, errors never occur): `applyRule` on each child against the given
scope, collecting the writes and the children's post-call state. -/
def evalChildren (E : Env) (R : RegexOps) (scope : List Nat) :
    (cs : List XRule) →
    List (String × Value) × {cs' : List XRule // rsizeL cs' = rsizeL cs}
  | [] => ([], ⟨[], rfl⟩)
  | c :: cs =>
    match applyRule E R scope c, evalChildren E R scope cs with
    | (v, ⟨c', hc⟩), (kvs, ⟨cs', hcs⟩) =>
      ((c.Name, v) :: kvs, ⟨c' :: cs', by simp [rsizeL, hc, hcs]⟩)
termination_by cs => (3 * rsizeL cs + 1, 0)
decreasing_by
  all_goals simp_wf
  all_goals simp only [Prod.lex_iff, rsize, rsizeL, true_and, and_true] at *
  all_goals (try cases c)
  all_goals simp only [rsize, rsizeL] at *
  all_goals (first | omega | (have h9 := rsize_pos c; omega))

end

/-! ## Path Remapper (extract/mapper.go) -/

/-- Longest prefix of decimal digits, with the remainder. -/
def takeDigits : List Char → List Char × List Char
  | [] => ([], [])
  | c :: cs =>
    if c.isDigit then
      let r := takeDigits cs
      (c :: r.1, r.2)
    else ([], c :: cs)

/-- Leftmost match of the Go regex `\[[0-9]+]`: the digits of the first
bracketed number, scanning candidate start positions left to right. -/
def findBracketNum : List Char → Option (List Char)
  | [] => none
  | '[' :: rest =>
    match takeDigits rest with
    | (ds, ']' :: _) => if ds ≠ [] then some ds else findBracketNum rest
    | _ => findBracketNum rest
  | _ :: rest => findBracketNum rest

/-- Decimal digits to a number. -/
def digitsToNat (ds : List Char) : Nat :=
  ds.foldl (fun n c => n * 10 + (c.toNat - 48)) 0

/-- `extractNumberFromBrackets` (mapper.go lines 144-168): first `[n]`
group in the string, `none` when there is no match (the "no number found"
error) or when `strconv.Atoi` overflows a 64-bit int. -/
def extractNumberFromBrackets (s : String) : Option Nat :=
  match findBracketNum s.data with
  | none => none
  | some ds =>
    let n := digitsToNat ds
    if n < 2 ^ 63 then some n else none

/-- Fuel-driven removal of every `\[[0-9]+]` match (Go
`ReplaceAllString(key, "")`); the fuel, instantiated with the input
length, never runs out because every step consumes a character. -/
def stripGo : Nat → List Char → List Char
  | _, [] => []
  | 0, s => s
  | fuel + 1, '[' :: rest =>
    match takeDigits rest with
    | (ds, ']' :: rest2) => if ds ≠ [] then stripGo fuel rest2 else '[' :: stripGo fuel rest
    | _ => '[' :: stripGo fuel rest
  | fuel + 1, c :: rest => c :: stripGo fuel rest

/-- Remove every `[n]` group from a key (`re.ReplaceAllString(key, "")`). -/
def stripBracketNums (s : String) : String :=
  String.mk (stripGo s.data.length s.data)

/-- `strings.Split(path, ".")`. -/
def splitDots (s : String) : List String :=
  litSplit "." s

/-- Read a key of a `map[string]interface{}` embedded as an association
list. -/
def objLookup : List (String × Value) → String → Option Value
  | [], _ => none
  | (k', v) :: rest, k => if k' = k then some v else objLookup rest k

/-- `complexPathing` (mapper.go lines 90-142) on the already-split key
list.  `none` models the one way the Go code panics: a trailing bracketed
index equal to the array length passes the defensive `n > len(v)` check
and then evaluates `v[n]`, an index out of range.  When an intermediate
key holds a non-map value the Go code logs "pathing failed" and returns
the root maps unchanged — at that point it has not created or written
anything, because intermediate maps are only created below keys that were
absent, and inside a freshly created (empty) map every lookup is absent. -/
def complexPathingKeys (m : List (String × Value)) :
    List String → Value → Option (List (String × Value))
  | [], _ => some m
  | [k], value =>
    match value with
    | .vList v =>
      match extractNumberFromBrackets k with
      | none => some (objInsert m k (.vList v))
      | some n =>
        if n > v.length then some (objInsert m k (.vList v))
        else
          match v.get? n with
          | some x => some (objInsert m (stripBracketNums k) x)
          | none => none
    | _ => some (objInsert m k value)
  | k :: k2 :: rest, value =>
    match objLookup m k with
    | none =>
      match complexPathingKeys [] (k2 :: rest) value with
      | some sub => some (objInsert m k (.vObj sub))
      | none => none
    | some (.vObj sub) =>
      match complexPathingKeys sub (k2 :: rest) value with
      | some sub' => some (objInsert m k (.vObj sub'))
      | none => none
    | some _ => some m

/-- `complexPathing(maps, path, value)`. -/
def complexPathing (m : List (String × Value)) (path : String) (value : Value) :
    Option (List (String × Value)) :=
  complexPathingKeys m (splitDots path) value

/-- The traversal of `complexPathing` meets an existing non-map value at
an intermediate key (the "pathing failed" condition). -/
def pathBlocked (m : List (String × Value)) : List String → Bool
  | [] => false
  | [_] => false
  | k :: k2 :: rest =>
    match objLookup m k with
    | none => false
    | some (.vObj sub) => pathBlocked sub (k2 :: rest)
    | some _ => true

/-- Locate the value stored under a dotted path. -/
def pathLookup (m : List (String × Value)) : List String → Option Value
  | [] => none
  | [k] => objLookup m k
  | k :: k2 :: rest =>
    match objLookup m k with
    | some (.vObj sub) => pathLookup sub (k2 :: rest)
    | _ => none

/-- The write side of the `MapResultsResults` directive loop (mapper.go
lines 37-84), for directives writing to the shared root
(`mapping.Object == ""`): each directive's located value is assigned at
its destination path through `complexPathing`, in order.  The located
value (a `gjson` lookup in the Go code) is abstracted as the directive's
payload; `none` propagates the one panic `complexPathing` can raise. -/
def mapDirectives (m : List (String × Value)) :
    List (String × Value) → Option (List (String × Value))
  | [] => some m
  | (p, v) :: ds =>
    match complexPathing m p v with
    | some m' => mapDirectives m' ds
    | none => none

/-- `Mapping` (mapper.go lines 18-27): one remap directive.  `Format` is
`Option`-valued because the Go field is a map that may be `nil`, and
`remapSingleObject` observably replaces a `nil` Format by an empty map. -/
inductive Mapping : Type where
  | mk (Object Key To : String) (Format : Option (List (String × Value)))
       (IsArray IsObject : Bool) (ArrayObjMap : List Mapping) : Mapping
deriving Repr

def Mapping.Object : Mapping → String
  | .mk o _ _ _ _ _ _ => o

def Mapping.Key : Mapping → String
  | .mk _ k _ _ _ _ _ => k

def Mapping.To : Mapping → String
  | .mk _ _ t _ _ _ _ => t

def Mapping.Format : Mapping → Option (List (String × Value))
  | .mk _ _ _ f _ _ _ => f

mutual

/-- `deepCopy` (mapper.go lines 200-209).  `ph` is the
`replacePlaceholdersInterface` pass (part_012 lines 580-631), an oracle
parameter because it draws fresh randomness (uuid/hex/base64) and clock
readings per call. -/
def deepCopy (ph : Value → Nat → Value) : Value → Nat → Value
  | .vObj m, index => .vObj (deepCopyMap ph m index)
  | .vList s, _index => .vList (deepCopySliceGo ph 0 s)
  | v, index => ph v index

/-- `deepCopyMap` (mapper.go lines 211-220), minus the `nil` map guard
which the `Option` in `Mapping.Format` accounts for. -/
def deepCopyMap (ph : Value → Nat → Value) :
    List (String × Value) → Nat → List (String × Value)
  | [], _ => []
  | (k, v) :: rest, index => (k, deepCopy ph v index) :: deepCopyMap ph rest index

/-- `deepCopySlice` (mapper.go lines 222-231): each element is copied with
its own position as the placeholder index. -/
def deepCopySliceGo (ph : Value → Nat → Value) (i : Nat) : List Value → List Value
  | [] => []
  | v :: rest => deepCopy ph v i :: deepCopySliceGo ph (i + 1) rest

end

/-- The `gjson` dotted-path lookup, for the subset of path syntax the
remapper produces after bracket normalisation: plain object keys and
decimal array indices separated by dots. -/
def gjsonGet (v : Value) : List String → Option Value
  | [] => some v
  | k :: rest =>
    match v with
    | .vObj fields =>
      match objLookup fields k with
      | some v' => gjsonGet v' rest
      | none => none
    | .vList xs =>
      if k ≠ "" ∧ k.data.all Char.isDigit then
        match xs.get? (digitsToNat k.data) with
        | some x => gjsonGet x rest
        | none => none
      else none
    | _ => none

/-- `remapSingleObject` (mapper.go lines 171-198) with the accumulated
`remappedObj` made explicit.  The Go loop mutates each directive in place
(`rule.Key` has brackets rewritten to dots, a `nil` `rule.Format` becomes
an empty map), so the directives' post-call state is returned alongside
the produced object; `none` propagates the panic `complexPathing` can
raise.  The `range formatCopy` map iteration is modelled in association
list order (the Go map has no duplicate keys, so only the order of fresh
key insertions can differ, and Go maps are unordered anyway). -/
def remapSingleGo (ph : Value → Nat → Value) (obj : Value) (index : Nat) :
    List Mapping → List (String × Value) →
    Option (List (String × Value) × List Mapping)
  | [], acc => some (acc, [])
  | .mk ob key dst fmt isArr isObj aom :: rules, acc =>
    let key := litReplace "[" key "."
    let key := litReplace "]" key ""
    let gv : Option Value :=
      if key = "" ∨ key = "." then some obj else gjsonGet obj (splitDots key)
    let fmt' := match fmt with | none => [] | some f => f
    let formatCopy := deepCopyMap ph fmt' index
    let acc := recWrites acc formatCopy
    match (match gv with
           | some gval => complexPathing acc dst gval
           | none => some acc) with
    | none => none
    | some acc' =>
      match remapSingleGo ph obj index rules acc' with
      | none => none
      | some (res, rules') =>
        some (res, .mk ob key dst (some fmt') isArr isObj aom :: rules')

/-- `remapSingleObject(obj, rules, index)`: the produced object together
with the directives as they stand after the call. -/
def remapSingleObject (ph : Value → Nat → Value) (obj : Value)
    (rules : List Mapping) (index : Nat) :
    Option (List (String × Value) × List Mapping) :=
  remapSingleGo ph obj index rules []

/-- The directive mutation `remapSingleObject` performs: brackets in `Key`
rewritten to dots, a `nil` `Format` replaced by an empty map, everything
else untouched. -/
def normMapping : Mapping → Mapping
  | .mk ob key dst fmt isArr isObj aom =>
    .mk ob (litReplace "]" (litReplace "[" key ".") "") dst
      (some (fmt.getD [])) isArr isObj aom

/-! ## Concurrent Downloader (part_012 lines 79-144 and 307-370) -/

/-- The download batch of the `rule.Download` branch of
`Result.DownloadResults` (part_012 lines 97-119).  `urls` is the
already-extracted URL array `r.GetResultStringArray(rule.Name)`;
`fetchPath u` is the outcome `downloadResource` produces for `u` under the
ambient filesystem/network state (`none` when that fetch fails — the Go
call `p, _ := downloadResource(...)` then reads `p = ""`).  Each worker
goroutine owns the fixed slot `i` of `downloadList` and writes exactly
`downloadList[i] = p`; `order` is the order in which the workers complete,
and `conc` is the semaphore weight (it clamps to 1 and bounds how many
workers are in flight, not what any of them writes). -/
def downloadBatch (fetchPath : String → Option String) (urls : List String)
    (conc : Nat) (order : List Nat) : List String :=
  let _ := if conc < 1 then 1 else conc
  order.foldl (fun arr i => arr.set i ((fetchPath (urls.getD i "")).getD ""))
    (List.replicate urls.length "")

/-- The ambient state `downloadResource` interacts with: `url.Parse` (the
path component of the parsed URL, `none` on parse error), `filepath.Join`,
`os.Stat` (whether it reports `ErrNotExist`), the wall clock, the HTTP
round trip (status, `none` on transport error) and directory/file
creation success. -/
structure DLWorld : Type where
  urlPath : String → Option String
  joinPath : String → String → String
  statNotExist : String → Bool
  nowNano : String
  httpGet : String → Option Nat
  mkdirOk : String → Bool
  writeOk : String → Bool

/-- Go `filepath.Base` on a unix path. -/
def filepathBase (path : String) : String :=
  if path = "" then "."
  else
    let r := path.data.reverse.dropWhile (fun c => c = '/')
    if r = [] then "/"
    else String.mk ((r.takeWhile (fun c => c ≠ '/')).reverse)

/-- Reversed-scan helper for `filepath.Ext`: the characters up to and
including the first dot. -/
def extTake : List Char → Option (List Char)
  | [] => none
  | c :: cs => if c = '.' then some ['.'] else (extTake cs).map (c :: ·)

/-- Go `filepath.Ext`: the suffix beginning at the final dot in the final
path element, `""` when there is none. -/
def filepathExt (path : String) : String :=
  match extTake (path.data.reverse.takeWhile (fun c => c ≠ '/')) with
  | none => ""
  | some l => String.mk l.reverse

/-- Go `strings.TrimSuffix`. -/
def trimSuffixStr (s suf : String) : String :=
  if suf.data.isSuffixOf s.data
  then String.mk (s.data.take (s.data.length - suf.data.length))
  else s

/-- Fuel-driven body of `removeDuplicateExt` (part_012 lines 372-388); the
fuel, instantiated with the filename length, never runs out because a
non-empty extension is stripped before every recursive call.  The leading
character of a non-empty `filepath.Ext` is always a dot, so re-prefixing
`"."` to `ext[1:]` reproduces `ext` itself. -/
def removeDupExtGo : Nat → String → String
  | 0, filename => filename
  | fuel + 1, filename =>
    let ext := filepathExt filename
    if ext = "" then filename
    else
      match ext.data with
      | [] => filename
      | _dot :: rest =>
        let suf := String.mk ('.' :: rest)
        let base := trimSuffixStr filename suf
        if suf.data.isSuffixOf base.data then removeDupExtGo fuel base
        else filename

/-- `removeDuplicateExt` (part_012 lines 372-388). -/
def removeDuplicateExt (filename : String) : String :=
  removeDupExtGo filename.data.length filename

/-- `downloadResource` (part_012 lines 307-370).  The result is the
returned local path (`none` for an error return), whether an HTTP request
was issued, and the list of files written.  The user-agent header setup of
lines 327-334 only decorates the request. -/
def downloadResource (W : DLWorld) (rawURL saveDir : String) :
    Option String × Bool × List String :=
  match W.urlPath rawURL with
  | none => (none, false, [])
  | some upath =>
    let filename := filepathBase upath
    let filename := if filename = "" ∨ filename = "/" then W.nowNano else filename
    let p := removeDuplicateExt filename
    let outPath := W.joinPath saveDir p
    if W.statNotExist outPath then
      match W.httpGet rawURL with
      | none => (none, true, [])
      | some status =>
        if status ≠ 200 then (none, true, [])
        else
          let dir := if saveDir = "" then "./" else saveDir
          if W.mkdirOk dir then
            if W.writeOk outPath then (some outPath, true, [outPath])
            else (none, true, [])
          else (none, true, [])
    else (some outPath, false, [])

/-! ## Facts about the embedded maps and paths -/

theorem objLookup_insert (m : List (String × Value)) (k : String) (v : Value) :
    objLookup (objInsert m k v) k = some v := by
  induction m with
  | nil => simp [objInsert, objLookup]
  | cons kv rest ih =>
    obtain ⟨k', v'⟩ := kv
    by_cases h : k' = k
    · simp [objInsert, h, objLookup]
    · simp [objInsert, h, objLookup, ih]

theorem objInsert_self (m : List (String × Value)) (k : String) (v : Value)
    (h : objLookup m k = some v) : objInsert m k v = m := by
  induction m with
  | nil => simp [objLookup] at h
  | cons kv rest ih =>
    obtain ⟨k', v'⟩ := kv
    by_cases hk : k' = k
    · simp [objLookup, hk] at h
      simp [objInsert, hk, h]
    · simp [objLookup, hk] at h
      simp [objInsert, hk, ih h]

/-- A blocked traversal writes nothing: when `complexPathing` meets an
existing non-map value at an intermediate key, the root object comes back
exactly as it was. -/
theorem pathBlocked_noop (keys : List String) :
    ∀ (m : List (String × Value)) (v : Value),
      pathBlocked m keys = true → complexPathingKeys m keys v = some m := by
  induction keys with
  | nil => intro m v h; simp [pathBlocked] at h
  | cons k rest ih =>
    intro m v h
    cases rest with
    | nil => simp [pathBlocked] at h
    | cons k2 rest2 =>
      cases hm : objLookup m k with
      | none => simp [pathBlocked, hm] at h
      | some w =>
        cases w with
        | vObj sub =>
          have hb : pathBlocked sub (k2 :: rest2) = true := by
            simpa [pathBlocked, hm] using h
          simp [complexPathingKeys, hm, ih sub v hb, objInsert_self m k _ hm]
        | vNull => simp [complexPathingKeys, hm]
        | vStr s => simp [complexPathingKeys, hm]
        | vInt n => simp [complexPathingKeys, hm]
        | vBool b => simp [complexPathingKeys, hm]
        | vList xs => simp [complexPathingKeys, hm]

/-- The final key of a split path carries no bracketed index. -/
def lastNoBracket : List String → Bool
  | [] => false
  | [k] => (extractNumberFromBrackets k).isNone
  | _ :: k2 :: rest => lastNoBracket (k2 :: rest)

/-- A successful unblocked assignment leaves the path unblocked. -/
theorem cp_unblocked (keys : List String) :
    ∀ (m : List (String × Value)) (v : Value) (m' : List (String × Value)),
      pathBlocked m keys = false →
      complexPathingKeys m keys v = some m' →
      pathBlocked m' keys = false := by
  induction keys with
  | nil => intro m v m' h hc; simp [complexPathingKeys] at hc; simp [← hc, pathBlocked]
  | cons k rest ih =>
    intro m v m' h hc
    cases rest with
    | nil => simp [pathBlocked]
    | cons k2 rest2 =>
      cases hm : objLookup m k with
      | none =>
        cases hcp : complexPathingKeys [] (k2 :: rest2) v with
        | none => simp [complexPathingKeys, hm, hcp] at hc
        | some sub =>
          simp [complexPathingKeys, hm, hcp] at hc
          have hbl : pathBlocked ([] : List (String × Value)) (k2 :: rest2) = false := by
            cases rest2 <;> simp [pathBlocked, objLookup]
          have := ih [] v sub hbl hcp
          simp [← hc, pathBlocked, objLookup_insert, this]
      | some w =>
        cases w with
        | vObj sub =>
          have hb : pathBlocked sub (k2 :: rest2) = false := by
            simpa [pathBlocked, hm] using h
          cases hcp : complexPathingKeys sub (k2 :: rest2) v with
          | none => simp [complexPathingKeys, hm, hcp] at hc
          | some sub' =>
            simp [complexPathingKeys, hm, hcp] at hc
            have := ih sub v sub' hb hcp
            simp [← hc, pathBlocked, objLookup_insert, this]
        | vNull => simp [pathBlocked, hm] at h
        | vStr s => simp [pathBlocked, hm] at h
        | vInt n => simp [pathBlocked, hm] at h
        | vBool b => simp [pathBlocked, hm] at h
        | vList xs => simp [pathBlocked, hm] at h

/-- Assign-then-locate: an unblocked `complexPathing` write with a
bracket-free final key stores exactly the given value at the path. -/
theorem cp_lookup (keys : List String) :
    ∀ (m : List (String × Value)) (v : Value) (m' : List (String × Value)),
      pathBlocked m keys = false →
      lastNoBracket keys = true →
      complexPathingKeys m keys v = some m' →
      pathLookup m' keys = some v := by
  induction keys with
  | nil => intro m v m' _ h2 _; simp [lastNoBracket] at h2
  | cons k rest ih =>
    intro m v m' h1 h2 h3
    cases rest with
    | nil =>
      have hnb : extractNumberFromBrackets k = none := by
        simpa [lastNoBracket, Option.isNone_iff_eq_none] using h2
      cases v with
      | vList xs =>
        simp [complexPathingKeys, hnb] at h3
        simp [← h3, pathLookup, objLookup_insert]
      | vNull =>
        simp [complexPathingKeys] at h3
        simp [← h3, pathLookup, objLookup_insert]
      | vStr s =>
        simp [complexPathingKeys] at h3
        simp [← h3, pathLookup, objLookup_insert]
      | vInt n =>
        simp [complexPathingKeys] at h3
        simp [← h3, pathLookup, objLookup_insert]
      | vBool b =>
        simp [complexPathingKeys] at h3
        simp [← h3, pathLookup, objLookup_insert]
      | vObj fs =>
        simp [complexPathingKeys] at h3
        simp [← h3, pathLookup, objLookup_insert]
    | cons k2 rest2 =>
      have h2' : lastNoBracket (k2 :: rest2) = true := by
        simpa [lastNoBracket] using h2
      cases hm : objLookup m k with
      | none =>
        cases hcp : complexPathingKeys [] (k2 :: rest2) v with
        | none => simp [complexPathingKeys, hm, hcp] at h3
        | some sub =>
          simp [complexPathingKeys, hm, hcp] at h3
          have hbl : pathBlocked ([] : List (String × Value)) (k2 :: rest2) = false := by
            cases rest2 <;> simp [pathBlocked, objLookup]
          have hlk := ih [] v sub hbl h2' hcp
          simp [← h3, pathLookup, objLookup_insert, hlk]
      | some w =>
        cases w with
        | vObj sub =>
          have hb : pathBlocked sub (k2 :: rest2) = false := by
            simpa [pathBlocked, hm] using h1
          cases hcp : complexPathingKeys sub (k2 :: rest2) v with
          | none => simp [complexPathingKeys, hm, hcp] at h3
          | some sub' =>
            simp [complexPathingKeys, hm, hcp] at h3
            have hlk := ih sub v sub' hb h2' hcp
            simp [← h3, pathLookup, objLookup_insert, hlk]
        | vNull => simp [pathBlocked, hm] at h1
        | vStr s => simp [pathBlocked, hm] at h1
        | vInt n => simp [pathBlocked, hm] at h1
        | vBool b => simp [pathBlocked, hm] at h1
        | vList xs => simp [pathBlocked, hm] at h1

/-! ## Facts about flattenList -/

/-- Is the dynamic value a `[]interface{}` slice. -/
def isVList : Value → Bool
  | .vList _ => true
  | _ => false

/-- The number of non-slice leaves reachable through nested
`[]interface{}` slices, in the traversal order of `flattenList`. -/
def leafCount : List Value → Nat
  | [] => 0
  | .vList xs :: rest => leafCount xs + leafCount rest
  | _ :: rest => 1 + leafCount rest

theorem flat_no_list (l : List Value) : ∀ v ∈ flattenList l, isVList v = false := by
  induction l using flattenList.induct with
  | case1 => simp [flattenList]
  | case2 xs rest ih1 ih2 =>
    intro v hv
    simp only [flattenList, List.mem_append] at hv
    rcases hv with h | h
    · exact ih1 v h
    · exact ih2 v h
  | case3 v rest hne ih =>
    intro w hw
    rcases List.mem_cons.1 (by simpa [flattenList, hne] using hw) with h | h
    · subst h
      cases w with
      | vList xs => exact absurd rfl (hne xs)
      | vNull => rfl
      | vStr s => rfl
      | vInt n => rfl
      | vBool b => rfl
      | vObj fs => rfl
    · exact ih w h

theorem flat_length (l : List Value) : (flattenList l).length = leafCount l := by
  induction l using flattenList.induct with
  | case1 => simp [flattenList, leafCount]
  | case2 xs rest ih1 ih2 => simp [flattenList, leafCount, ih1, ih2]
  | case3 v rest hne ih =>
    cases v with
    | vList xs => exact absurd rfl (hne xs)
    | vNull => simp [flattenList, leafCount, ih]; omega
    | vStr s => simp [flattenList, leafCount, ih]; omega
    | vInt n => simp [flattenList, leafCount, ih]; omega
    | vBool b => simp [flattenList, leafCount, ih]; omega
    | vObj fs => simp [flattenList, leafCount, ih]; omega

theorem flat_of_no_list (l : List Value) (h : ∀ v ∈ l, isVList v = false) :
    flattenList l = l := by
  induction l with
  | nil => simp [flattenList]
  | cons v rest ih =>
    have hv : isVList v = false := h v (by simp)
    have hr := ih (fun w hw => h w (by simp [hw]))
    cases v with
    | vList xs => simp [isVList] at hv
    | vNull => simp [flattenList, hr]
    | vStr s => simp [flattenList, hr]
    | vInt n => simp [flattenList, hr]
    | vBool b => simp [flattenList, hr]
    | vObj fs => simp [flattenList, hr]

/-! ## Claim theorems: path assignment and flattening -/

/-- Claim C2, code-bug record: `complexPathing` handles the spec's
bracketed-index cases (`a.b[1]` selects element 1, `a.b[9]` falls back to
storing the whole array at the bracketed key) but, for an index equal to
the array length (`a.b[3]` against a 3-element array), the defensive
check `n > len(v)` lets `n = len(v)` through and the Go code evaluates
`v[n]`, an index-out-of-range panic (modelled as `none`). -/
theorem C2_bracket_index_eval :
    complexPathing [] "a.b[1]" (.vList [.vStr "x", .vStr "y", .vStr "z"])
      = some [("a", .vObj [("b", .vStr "y")])] ∧
    complexPathing [] "a.b[9]" (.vList [.vStr "x", .vStr "y", .vStr "z"])
      = some [("a", .vObj [("b[9]", .vList [.vStr "x", .vStr "y", .vStr "z"])])] ∧
    complexPathing [] "a.b[3]" (.vList [.vStr "x", .vStr "y", .vStr "z"]) = none :=
  ⟨rfl, rfl, rfl⟩

/-- Claim C4, counterexample: `flattenList` is recursive, so an array
nested two levels deep does not remain an array — `[[["a"]]]` flattens all
the way to `["a"]`, not to the one-level collapse `[["a"]]`. -/
theorem C4_two_level_array_collapsed :
    flattenList [.vList [.vList [.vStr "a"]]] = [.vStr "a"] ∧
    flattenList [.vList [.vList [.vStr "a"]]] ≠ [.vList [.vStr "a"]] := by
  constructor
  · simp [flattenList]
  · simp [flattenList]

/-- Claim C4, amended: applying Flatten collapses every level of array
nesting, not exactly one — the output contains no arrays at all, its
length is the number of non-array leaves (rather than the matched-element
count after a single-level collapse), and flattening is idempotent. -/
theorem C4_flatten_is_deep (vals : List Value) :
    (∀ v ∈ flattenList vals, isVList v = false) ∧
    (flattenList vals).length = leafCount vals ∧
    flattenList (flattenList vals) = flattenList vals :=
  ⟨flat_no_list vals, flat_length vals,
    flat_of_no_list (flattenList vals) (flat_no_list vals)⟩

/-- Claim C7: (a) a directive whose destination path meets an existing
non-map value at an intermediate segment is abandoned with the
destination object exactly as it was, and the remaining directives of the
loop are still applied to that unchanged object; (b) when two directives
write to the same (unblocked, bracket-free) leaf path, the later write is
the value found there afterwards. -/
theorem C7_directive_independence (m : List (String × Value)) (p : String)
    (v : Value) (ds : List (String × Value)) :
    (pathBlocked m (splitDots p) = true →
      complexPathing m p v = some m ∧
      mapDirectives m ((p, v) :: ds) = mapDirectives m ds) ∧
    (∀ (v2 : Value) (m1 m2 : List (String × Value)),
      pathBlocked m (splitDots p) = false →
      lastNoBracket (splitDots p) = true →
      complexPathing m p v = some m1 →
      complexPathing m1 p v2 = some m2 →
      pathLookup m2 (splitDots p) = some v2) := by
  constructor
  · intro hb
    have h1 : complexPathing m p v = some m :=
      pathBlocked_noop (splitDots p) m v hb
    exact ⟨h1, by simp [mapDirectives, h1]⟩
  · intro v2 m1 m2 h1 h2 h3 h4
    have hu := cp_unblocked (splitDots p) m v m1 h1 h3
    exact cp_lookup (splitDots p) m1 v2 m2 hu h2 h4

/-- Witness for C7 at concrete inputs: `a` already holds the scalar `"s"`,
so assigning under `a.b` is a no-op and the following directive is still
applied; two writes to the fresh path `x.y` leave the second value there. -/
theorem C7_directive_independence_witness :
    complexPathing [("a", .vStr "s")] "a.b" (.vStr "n") = some [("a", .vStr "s")] ∧
    mapDirectives [("a", .vStr "s")] [("a.b", .vStr "n"), ("c", .vStr "w")]
      = mapDirectives [("a", .vStr "s")] [("c", .vStr "w")] ∧
    pathLookup [("x", .vObj [("y", .vStr "2")])] (splitDots "x.y") = some (.vStr "2") := by
  refine ⟨?_, ?_, ?_⟩
  · exact ((C7_directive_independence [("a", .vStr "s")] "a.b" (.vStr "n")
      [("c", .vStr "w")]).1 rfl).1
  · exact ((C7_directive_independence [("a", .vStr "s")] "a.b" (.vStr "n")
      [("c", .vStr "w")]).1 rfl).2
  · exact (C7_directive_independence [] "x.y" (.vStr "1") []).2 (.vStr "2")
      [("x", .vObj [("y", .vStr "1")])] [("x", .vObj [("y", .vStr "2")])] rfl rfl rfl rfl

/-! ## Claim theorems: transform pipeline -/

theorem strLength_pos (s : String) (h : s ≠ "") : 0 < s.length := by
  obtain ⟨l⟩ := s
  cases l with
  | nil => exact absurd rfl h
  | cons c cs => simp [String.length]

/-- A value whose `safeString` rendering is empty (empty strings, nil,
bools, slices and maps) passes through `applyTransform` untouched. -/
theorem applyTransform_empty_scalar (R : RegexOps) (raw : Value)
    (ts : List Transforms) (h : safeString raw = "") :
    applyTransform R raw ts = [raw] := by
  unfold applyTransform
  split
  · rfl
  · simp [h]

/-- Claim C8, counterexample: an `int` scalar is a scalar value, and a
sole Replace transform whose pattern `"x"` has no occurrence in it still
changes the value — `3` comes back as the string `"3"`, not unchanged. -/
theorem C8_int_not_identity :
    applyTransform litRegex (.vInt 3) [⟨"x", false, "y"⟩] = [.vStr "3"] ∧
    applyTransform litRegex (.vInt 3) [⟨"x", false, "y"⟩] ≠ [.vInt 3] := by
  refine ⟨rfl, ?_⟩
  intro h
  rw [show applyTransform litRegex (.vInt 3) [⟨"x", false, "y"⟩]
      = [Value.vStr "3"] from rfl] at h
  simp at h

/-- Claim C8, amended: a Transform list whose sole entry's pattern has no
occurrence in the value (expressed by the regex engine splitting it into
one whole fragment and replacing nothing) returns the value unchanged
when the value is a string — for both Split and Replace transforms, and
also when the pattern fails to compile — except that an `int` scalar is
returned as its decimal string rendering, and any value with an empty
string rendering is returned as-is. -/
theorem C8_transform_identity (R : RegexOps) (t : Transforms) (v : Value)
    (hs : R.rsplit t.Match (safeString v) = [safeString v])
    (hr : R.replaceAll t.Match (safeString v) t.Replace = safeString v) :
    applyTransform R v [t] =
      if safeString v = "" then [v] else [Value.vStr (safeString v)] := by
  by_cases h : safeString v = ""
  · simp [h, applyTransform_empty_scalar R v [t] h]
  · unfold applyTransform
    simp only [List.isEmpty_cons, Bool.false_eq_true, if_false, if_neg h]
    cases hc : R.compileOk t.Match with
    | false => simp [hc]
    | true =>
      cases hsp : t.Split with
      | true =>
        have hpos : 0 < (safeString v).length := strLength_pos _ h
        simp [hc, hsp, hs, hpos]
      | false => simp [hc, hsp, hr]

/-- Witness for C8 at a concrete input: the literal pattern `"q"` occurs
nowhere in `"ab"`, and both a Split and a Replace transform leave the
string unchanged. -/
theorem C8_transform_identity_witness :
    applyTransform litRegex (.vStr "ab") [⟨"q", true, "r"⟩] = [.vStr "ab"] ∧
    applyTransform litRegex (.vStr "ab") [⟨"q", false, "r"⟩] = [.vStr "ab"] := by
  constructor
  · have h := C8_transform_identity litRegex ⟨"q", true, "r"⟩ (.vStr "ab") rfl rfl
    simpa using h
  · have h := C8_transform_identity litRegex ⟨"q", false, "r"⟩ (.vStr "ab") rfl rfl
    simpa using h

/-! ## Claim theorems: rule evaluator -/

/-- A document environment with no selector matches, no attributes and no
fetchable documents. -/
def envEmpty : Env where
  find := fun _ _ => []
  attr := fun _ _ => none
  text := fun _ => ""
  parseURL := fun _ => none
  fetch := fun _ => none
  find_nil := fun _ => rfl

/-- Claim C3, counterexample: a leaf rule with `Multiple = false` against
a scope with zero selector matches evaluates, without error, to the
one-element array `[""]` — `applyTransform` always returns a slice — and
not to the bare zero-value scalar `""` the claim promises. -/
theorem C3_singular_zero_matches_wrapped :
    (applyRule envEmpty litRegex [0]
        (.mk "f" "s" "" false false false false "" [] [])).1
      = Value.vList [Value.vStr ""] ∧
    (applyRule envEmpty litRegex [0]
        (.mk "f" "s" "" false false false false "" [] [])).1
      ≠ Value.vStr "" := by
  have h : (applyRule envEmpty litRegex [0]
      (.mk "f" "s" "" false false false false "" [] [])).1
      = Value.vList [Value.vStr ""] := by
    simp [applyRule, envEmpty, applyTransform, safeString, defaultTransform]
  refine ⟨h, ?_⟩
  rw [h]
  simp

/-- Claim C3, amended: a leaf rule evaluated against a scope with zero
selector matches never yields an error (the evaluator is total and every
return site carries a `nil` error): with `Multiple = true` the result is
the empty array, and with `Multiple = false` it is the one-element array
holding the zero-value empty string — the transform stage wraps every
singular result in a slice. -/
theorem C3_zero_matches (E : Env) (R : RegexOps) (sel : List Nat) (rule : XRule)
    (hc : rule.Children = []) (hf : E.find sel rule.Selector = []) :
    (applyRule E R sel rule).1 =
      if rule.Multiple then Value.vList [] else Value.vList [Value.vStr ""] := by
  obtain ⟨nm, sl, ar, mu, dl, vi, fl, sd, cs, ts⟩ := rule
  simp only [XRule.Children] at hc
  subst hc
  simp only [XRule.Selector] at hf
  simp only [XRule.Multiple]
  cases mu with
  | true =>
    simp [applyRule, hf, applyTransforms]
    cases fl <;> simp [flattenList, applyTransforms]
  | false =>
    simp [applyRule, hf,
      applyTransform_empty_scalar _ (Value.vStr "") _ rfl]

/-- Witness for C3 at concrete inputs: both cardinalities of a leaf rule
against the empty environment. -/
theorem C3_zero_matches_witness :
    (applyRule envEmpty litRegex [0]
        (.mk "g" "s" "" true false false false "" [] [])).1 = Value.vList [] ∧
    (applyRule envEmpty litRegex [0]
        (.mk "g" "s" "a" false false false false "" [] [])).1
      = Value.vList [Value.vStr ""] := by
  constructor
  · have h := C3_zero_matches envEmpty litRegex [0]
      (.mk "g" "s" "" true false false false "" [] []) rfl rfl
    simpa [XRule.Multiple] using h
  · have h := C3_zero_matches envEmpty litRegex [0]
      (.mk "g" "s" "a" false false false false "" [] []) rfl rfl
    simpa [XRule.Multiple] using h

/-- Records pass through the transform stage untouched (their
`safeString` rendering is empty). -/
theorem applyTransform_obj (R : RegexOps) (m : List (String × Value))
    (ts : List Transforms) : applyTransform R (.vObj m) ts = [.vObj m] :=
  applyTransform_empty_scalar R _ ts rfl

/-- A document environment where scope `[0]` has one match for selector
`"q"`, element `1` carries `href="/x"`, the relative URL `"/x"` resolves
to `"https://h/x"`, and every fetch fails. -/
def envVisitFail : Env where
  find := fun sel q => if sel = [0] ∧ q = "q" then [1] else []
  attr := fun e a => if e = 1 ∧ a = "href" then some "/x" else none
  text := fun _ => ""
  parseURL := fun s => if s = "/x" then some "https://h/x" else none
  fetch := fun _ => none
  find_nil := by intro q; simp

/-- Claim C6, amended: for a Multiple rule with `Visit = true`, a
non-empty attribute whose raw value parses against the base URL, and a
failed fetch of the visited document, the evaluator records the RESOLVED
absolute URL (`u2.String()`), not the raw/relative attribute value, under
the Attr key; the visited document's child results are absent, evaluation
of the branch continues without error, and the rule still produces a
record. -/
theorem C6_visit_failure (E : Env) (R : RegexOps) (nm sl ar : String)
    (dl fl : Bool) (sd : String) (cs : List XRule) (ts : List Transforms)
    (sel : List Nat) (e : Nat) (u2 : String)
    (hcs : cs ≠ [])
    (har : ar ≠ "")
    (hfind : E.find sel sl = [e])
    (hraw : getAttr E e ar ≠ "")
    (hparse : E.parseURL (getAttr E e ar) = some u2)
    (hfetch : E.fetch u2 = none) :
    (applyRule E R sel (.mk nm sl ar true dl true fl sd cs ts)).1 =
      Value.vList [Value.vObj [(ar, Value.vStr u2)]] := by
  have hemp : cs.isEmpty = false := by
    cases cs with
    | nil => exact absurd rfl hcs
    | cons a l => rfl
  simp [applyRule, evalMatches, evalStep1, evalStep2, hemp, hfind, har, hraw,
    hparse, hfetch, applyTransforms, applyTransform_obj]

/-- Claim C6, counterexample: with `href="/x"` resolving to
`"https://h/x"` and the visit fetch failing, the record holds the resolved
URL, not the raw relative attribute value `"/x"` the claim describes. -/
theorem C6_visit_failure_counterexample :
    (applyRule envVisitFail litRegex [0]
        (.mk "r" "q" "href" true false true false ""
          [.mk "c" "s" "" false false false false "" [] []] [])).1
      = Value.vList [Value.vObj [("href", Value.vStr "https://h/x")]] ∧
    (applyRule envVisitFail litRegex [0]
        (.mk "r" "q" "href" true false true false ""
          [.mk "c" "s" "" false false false false "" [] []] [])).1
      ≠ Value.vList [Value.vObj [("href", Value.vStr "/x")]] := by
  have h : (applyRule envVisitFail litRegex [0]
      (.mk "r" "q" "href" true false true false ""
        [.mk "c" "s" "" false false false false "" [] []] [])).1
      = Value.vList [Value.vObj [("href", Value.vStr "https://h/x")]] := by
    simp [applyRule, evalMatches, evalStep1, evalStep2, envVisitFail, getAttr,
      applyTransforms, applyTransform_obj]
  refine ⟨h, ?_⟩
  rw [h]
  simp

/-- Witness for C6 at the concrete failing-fetch environment. -/
theorem C6_visit_failure_witness :
    (applyRule envVisitFail litRegex [0]
        (.mk "w" "q" "href" true true true true "d"
          [.mk "c" "s" "" false false false false "" [] []] [])).1
      = Value.vList [Value.vObj [("href", Value.vStr "https://h/x")]] := by
  exact C6_visit_failure envVisitFail litRegex "w" "q" "href" true true "d"
    [.mk "c" "s" "" false false false false "" [] []] [] [0] 1 "https://h/x"
    (by simp) (by simp) rfl (by simp [getAttr, envVisitFail]) rfl rfl

/-! ## Claim theorems: concurrent downloader -/

/-- Disjoint-slot writes: folding per-slot writes over any completion
order fills exactly the slots named by the order, each with its own
value. -/
theorem dlFoldl_get {α : Type} (f : Nat → α) (order : List Nat) :
    ∀ (arr : List α) (j : Nat),
      (order.foldl (fun a i => a.set i (f i)) arr)[j]? =
        if j ∈ order ∧ j < arr.length then some (f j) else arr[j]? := by
  induction order with
  | nil => intro arr j; simp
  | cons i rest ih =>
    intro arr j
    simp only [List.foldl_cons]
    rw [ih]
    simp only [List.length_set, List.mem_cons]
    by_cases hj : j ∈ rest
    · by_cases hlen : j < arr.length
      · simp [hj, hlen]
      · simp only [hj, and_true, hlen, and_false, if_false]
        rw [List.getElem?_set]
        by_cases hij : i = j
        · subst hij
          simp only [if_pos rfl, hlen, if_false]
          exact (List.getElem?_eq_none (by omega)).symm
        · simp [hij]
    · by_cases hij : i = j
      · subst hij
        by_cases hlen : i < arr.length
        · simp [hj, hlen, List.getElem?_set]
        · simp only [hj, hlen, and_false, if_false, or_false, false_or]
          rw [List.getElem?_set]
          simp only [if_pos rfl, hlen, if_false]
          exact (List.getElem?_eq_none (by omega)).symm
      · have : ¬ (j = i) := fun h => hij h.symm
        simp [hj, this, List.getElem?_set, hij]

/-- Claim C1: the download batch of `Result.DownloadResults` allocates
exactly one slot per extracted URL, and — for every positive concurrency
bound and every completion order of the worker goroutines — slot `i`
holds the local path `downloadResource` produced for the `i`-th URL, or
`""` when that one fetch failed; the outcome of one fetch never touches
any other slot and never aborts the batch. -/
theorem C1_download_batch_slots (fetchPath : String → Option String)
    (urls : List String) (conc : Nat) (order : List Nat)
    (hperm : order.Perm (List.range urls.length)) :
    downloadBatch fetchPath urls conc order
      = urls.map (fun u => (fetchPath u).getD "") ∧
    (downloadBatch fetchPath urls conc order).length = urls.length := by
  have hmem : ∀ j, j ∈ order ↔ j < urls.length := by
    intro j; rw [hperm.mem_iff, List.mem_range]
  have hmain : downloadBatch fetchPath urls conc order
      = urls.map (fun u => (fetchPath u).getD "") := by
    apply List.ext_getElem?
    intro j
    unfold downloadBatch
    rw [dlFoldl_get (fun i => (fetchPath (urls.getD i "")).getD "") order
      (List.replicate urls.length "") j]
    simp only [List.length_replicate]
    by_cases hlen : j < urls.length
    · simp only [hmem j, hlen, and_self, if_pos]
      rw [List.getElem?_map, List.getElem?_eq_getElem hlen]
      simp [List.getD_eq_getElem?_getD, List.getElem?_eq_getElem hlen]
    · simp only [hmem j, hlen, and_self, if_false]
      rw [List.getElem?_map]
      rw [List.getElem?_eq_none (by simp; omega), List.getElem?_eq_none (by simpa using hlen)]
      rfl
  exact ⟨hmain, by rw [hmain]; simp⟩

/-- Witness for C1: two URLs, concurrency 1, reversed completion order;
the second fetch fails and only slot 1 holds `""`. -/
theorem C1_download_batch_slots_witness :
    downloadBatch (fun u => if u = "u" then some "p" else none) ["u", "w"] 1 [1, 0]
      = ["p", ""] := by
  have h := C1_download_batch_slots (fun u => if u = "u" then some "p" else none)
    ["u", "w"] 1 [1, 0] (by decide)
  rw [h.1]
  rfl

/-- Claim C10: when the output path computed from the URL already exists
(or `os.Stat` fails with anything other than `ErrNotExist`),
`downloadResource` returns that local path immediately: no HTTP request
is issued and no file is written, so repeating a download batch
re-downloads nothing already present. -/
theorem C10_download_skips_existing (W : DLWorld) (rawURL saveDir upath : String)
    (hp : W.urlPath rawURL = some upath)
    (hstat : W.statNotExist (W.joinPath saveDir (removeDuplicateExt
      (if filepathBase upath = "" ∨ filepathBase upath = "/" then W.nowNano
       else filepathBase upath))) = false) :
    downloadResource W rawURL saveDir =
      (some (W.joinPath saveDir (removeDuplicateExt
        (if filepathBase upath = "" ∨ filepathBase upath = "/" then W.nowNano
         else filepathBase upath))), false, []) := by
  unfold downloadResource
  rw [hp]
  simp [hstat]

/-- A world where `/f.png` is the parsed path, the file already exists
everywhere (`os.Stat` never reports `ErrNotExist`), and the network would
fail if consulted. -/
def dlWorld0 : DLWorld where
  urlPath := fun u => if u = "http://h/f.png" then some "/f.png" else none
  joinPath := fun a b => a ++ "/" ++ b
  statNotExist := fun _ => false
  nowNano := "123"
  httpGet := fun _ => none
  mkdirOk := fun _ => true
  writeOk := fun _ => true

/-- Witness for C10: the existing `d/f.png` is returned with no HTTP
request and no file writes, although the network is down. -/
theorem C10_download_skips_existing_witness :
    downloadResource dlWorld0 "http://h/f.png" "d" = (some "d/f.png", false, []) := by
  have h := C10_download_skips_existing dlWorld0 "http://h/f.png" "d" "/f.png" rfl rfl
  exact h

/-! ## Claim theorems: purity of the evaluator and remapper -/

mutual

/-- The only change `applyRule` makes to a rule argument: every field is
equal except that a node's empty `Transforms` list may have become the
one-element default, and children are related pointwise. -/
def ruleUpd : XRule → XRule → Bool
  | .mk nm sl ar mu dl vi fl sd cs ts, .mk nm' sl' ar' mu' dl' vi' fl' sd' cs' ts' =>
    (nm' == nm) && (sl' == sl) && (ar' == ar) && (mu' == mu) && (dl' == dl) &&
    (vi' == vi) && (fl' == fl) && (sd' == sd) &&
    ((ts' == ts) || (ts.isEmpty && ts' == [defaultTransform])) &&
    ruleUpdL cs cs'

def ruleUpdL : List XRule → List XRule → Bool
  | [], [] => true
  | c :: cs, c' :: cs' => ruleUpd c c' && ruleUpdL cs cs'
  | _, _ => false

end

theorem ruleUpd_refl_all (n : Nat) :
    (∀ r : XRule, sizeOf r ≤ n → ruleUpd r r = true) ∧
    (∀ cs : List XRule, sizeOf cs ≤ n → ruleUpdL cs cs = true) := by
  induction n using Nat.strong_induction_on with
  | _ n ih =>
    constructor
    · intro r hr
      obtain ⟨nm, sl, ar, mu, dl, vi, fl, sd, cs, ts⟩ := r
      have hlt : sizeOf cs < n := by
        have := @XRule.mk.sizeOf_spec nm sl ar mu dl vi fl sd cs ts
        omega
      simp [ruleUpd]
      exact (ih (sizeOf cs) hlt).2 cs le_rfl
    · intro cs hcs
      cases cs with
      | nil => simp [ruleUpdL]
      | cons c rest =>
        have hspec := @List.cons.sizeOf_spec XRule _ c rest
        have h1 : sizeOf c < n := by omega
        have h2 : sizeOf rest < n := by omega
        simp [ruleUpdL]
        exact ⟨(ih (sizeOf c) h1).1 c le_rfl, (ih (sizeOf rest) h2).2 rest le_rfl⟩

theorem ruleUpd_refl (r : XRule) : ruleUpd r r = true :=
  (ruleUpd_refl_all (sizeOf r)).1 r le_rfl

theorem ruleUpdL_refl (cs : List XRule) : ruleUpdL cs cs = true :=
  (ruleUpd_refl_all (sizeOf cs)).2 cs le_rfl

theorem ruleUpd_trans_all (n : Nat) :
    (∀ a b c : XRule, sizeOf a ≤ n → ruleUpd a b = true → ruleUpd b c = true →
      ruleUpd a c = true) ∧
    (∀ as bs cs : List XRule, sizeOf as ≤ n → ruleUpdL as bs = true →
      ruleUpdL bs cs = true → ruleUpdL as cs = true) := by
  induction n using Nat.strong_induction_on with
  | _ n ih =>
    constructor
    · intro a b c ha hab hbc
      obtain ⟨nm, sl, ar, mu, dl, vi, fl, sd, csa, ts⟩ := a
      obtain ⟨nm1, sl1, ar1, mu1, dl1, vi1, fl1, sd1, csb, ts1⟩ := b
      obtain ⟨nm2, sl2, ar2, mu2, dl2, vi2, fl2, sd2, csc, ts2⟩ := c
      have hlt : sizeOf csa < n := by
        have := @XRule.mk.sizeOf_spec nm sl ar mu dl vi fl sd csa ts
        omega
      simp only [ruleUpd, Bool.and_eq_true, beq_iff_eq, Bool.or_eq_true] at hab hbc ⊢
      obtain ⟨⟨⟨⟨⟨⟨⟨⟨⟨e1, e2⟩, e3⟩, e4⟩, e5⟩, e6⟩, e7⟩, e8⟩, et⟩, hcsab⟩ := hab
      obtain ⟨⟨⟨⟨⟨⟨⟨⟨⟨f1, f2⟩, f3⟩, f4⟩, f5⟩, f6⟩, f7⟩, f8⟩, ft⟩, hcsbc⟩ := hbc
      subst e1 e2 e3 e4 e5 e6 e7 e8 f1 f2 f3 f4 f5 f6 f7 f8
      refine ⟨⟨⟨⟨⟨⟨⟨⟨⟨rfl, rfl⟩, rfl⟩, rfl⟩, rfl⟩, rfl⟩, rfl⟩, rfl⟩, ?_⟩,
        (ih (sizeOf csa) hlt).2 csa csb csc le_rfl hcsab hcsbc⟩
      rcases et with et | ⟨he, et⟩
      · subst et; exact ft
      · subst et
        rcases ft with ft | ⟨hf, ft⟩
        · exact Or.inr ⟨he, ft⟩
        · simp [defaultTransform] at hf
    · intro as bs cs ha hab hbc
      cases as with
      | nil =>
        cases bs with
        | nil => exact hbc
        | cons b bs' => simp [ruleUpdL] at hab
      | cons a as' =>
        cases bs with
        | nil => simp [ruleUpdL] at hab
        | cons b bs' =>
          cases cs with
          | nil => simp [ruleUpdL] at hbc
          | cons c cs' =>
            have hspec := @List.cons.sizeOf_spec XRule _ a as'
            have h1 : sizeOf a < n := by omega
            have h2 : sizeOf as' < n := by omega
            simp only [ruleUpdL, Bool.and_eq_true] at hab hbc ⊢
            exact ⟨(ih (sizeOf a) h1).1 a b c le_rfl hab.1 hbc.1,
              (ih (sizeOf as') h2).2 as' bs' cs' le_rfl hab.2 hbc.2⟩

theorem ruleUpdL_trans {as bs cs : List XRule} (h1 : ruleUpdL as bs = true)
    (h2 : ruleUpdL bs cs = true) : ruleUpdL as cs = true :=
  (ruleUpd_trans_all (sizeOf as)).2 as bs cs le_rfl h1 h2

theorem ruleUpd_defaultT (nm sl ar : String) (mu dl vi fl : Bool) (sd : String)
    (cs cs' : List XRule) (ts : List Transforms) (h : ruleUpdL cs cs' = true) :
    ruleUpd (.mk nm sl ar mu dl vi fl sd cs ts)
      (.mk nm sl ar mu dl vi fl sd cs' (if ts.isEmpty then [defaultTransform] else ts))
      = true := by
  cases hts : ts.isEmpty with
  | true => simp [ruleUpd, h, hts]
  | false => simp [ruleUpd, h, hts]

/-- Master characterisation of the in-place rule mutation: every stage of
the evaluator returns rules related to its argument by `ruleUpd` — only
empty `Transforms` lists are filled with the default. -/
theorem updMaster (N : Nat) :
    (∀ (E : Env) (R : RegexOps) (sel : List Nat) (rule : XRule), rsize rule ≤ N →
      ruleUpd rule (applyRule E R sel rule).2.1 = true) ∧
    (∀ (E : Env) (R : RegexOps) (scope : List Nat) (cs : List XRule), rsizeL cs ≤ N →
      ruleUpdL cs (evalChildren E R scope cs).2.1 = true) ∧
    (∀ (E : Env) (R : RegexOps) (ar : String) (dl vi : Bool) (ms : List Nat)
      (cs : List XRule), rsizeL cs ≤ N →
      ruleUpdL cs (evalMatches E R ar dl vi ms cs).2.1 = true) := by
  induction N using Nat.strong_induction_on with
  | _ N ih =>
    have hP : ∀ (E : Env) (R : RegexOps) (sel : List Nat) (rule : XRule),
        rsize rule ≤ N → ruleUpd rule (applyRule E R sel rule).2.1 = true := by
      intro E R sel rule hsz
      obtain ⟨nm, sl, ar, mu, dl, vi, fl, sd, cs, ts⟩ := rule
      have hszc : rsizeL cs < N := by simp [rsize] at hsz; omega
      by_cases hemp : cs.isEmpty
      · cases mu <;>
          simp only [applyRule, hemp, if_true, if_false, Bool.false_eq_true] <;>
          exact ruleUpd_defaultT nm sl ar _ dl vi fl sd cs cs ts (ruleUpdL_refl cs)
      · have hempf : cs.isEmpty = false := by
          cases h : cs.isEmpty
          · rfl
          · exact absurd h hemp
        cases mu with
        | true =>
          cases hEM : evalMatches E R ar dl vi (E.find sel sl) cs with
          | mk list sub =>
            obtain ⟨cs', hpres⟩ := sub
            simp only [applyRule, hempf, Bool.false_eq_true, if_false, if_true, hEM]
            have hupd := (ih (rsizeL cs) hszc).2.2 E R ar dl vi (E.find sel sl) cs le_rfl
            rw [hEM] at hupd
            exact ruleUpd_defaultT nm sl ar _ dl vi fl sd cs cs' ts hupd
        | false =>
          cases hEC : evalChildren E R
              (match (E.find sel sl).head? with | some e => [e] | none => []) cs with
          | mk kvs sub =>
            obtain ⟨cs', hpres⟩ := sub
            simp only [applyRule, hempf, Bool.false_eq_true, if_false, hEC]
            have hupd := (ih (rsizeL cs) hszc).2.1 E R
              (match (E.find sel sl).head? with | some e => [e] | none => []) cs le_rfl
            rw [hEC] at hupd
            exact ruleUpd_defaultT nm sl ar _ dl vi fl sd cs cs' ts hupd
    have hQ : ∀ (E : Env) (R : RegexOps) (scope : List Nat) (cs : List XRule),
        rsizeL cs ≤ N → ruleUpdL cs (evalChildren E R scope cs).2.1 = true := by
      intro E R scope cs
      induction cs with
      | nil => intro _; simp [evalChildren, ruleUpdL]
      | cons c rest ihc =>
        intro h
        have hc : rsize c ≤ N := by simp [rsizeL] at h; omega
        have hr : rsizeL rest ≤ N := by
          simp [rsizeL] at h
          have := rsize_pos c
          omega
        cases hA : applyRule E R scope c with
        | mk v sub =>
          obtain ⟨c', hc'⟩ := sub
          cases hC : evalChildren E R scope rest with
          | mk kvs sub2 =>
            obtain ⟨cs', hcs'⟩ := sub2
            simp only [evalChildren, hA, hC, ruleUpdL, Bool.and_eq_true]
            constructor
            · have := hP E R scope c hc
              rw [hA] at this
              exact this
            · have := ihc hr
              rw [hC] at this
              exact this
    have hS1 : ∀ (E : Env) (R : RegexOps) (ar : String) (dl vi : Bool) (e : Nat)
        (cs : List XRule), rsizeL cs ≤ N →
        ruleUpdL cs (evalStep1 E R ar dl vi e cs).2.1 = true := by
      intro E R ar dl vi e cs h
      by_cases har : ar ≠ ""
      · by_cases h2 : (dl || vi) = true ∧ getAttr E e ar ≠ ""
        · cases hp : E.parseURL (getAttr E e ar) with
          | none => simp [evalStep1, har, h2, hp, ruleUpdL_refl]
          | some u2 =>
            cases hvi : vi with
            | false =>
              cases dl with
              | false => simp [hvi] at h2
              | true => simp [evalStep1, har, h2, hp, ruleUpdL_refl]
            | true =>
              cases hf : E.fetch u2 with
              | none => simp [evalStep1, har, h2, hp, hf, ruleUpdL_refl]
              | some docSel =>
                cases hec : evalChildren E R docSel cs with
                | mk kvs sub =>
                  obtain ⟨cs', hcs'⟩ := sub
                  have hq := hQ E R docSel cs h
                  rw [hec] at hq
                  simpa [evalStep1, har, h2, hp, hf, hec] using hq
        · simp only [Bool.or_eq_true, ne_eq] at h2
          simp [evalStep1, har, h2, ruleUpdL_refl]
      · simp [evalStep1, har, ruleUpdL_refl]
    have hS2 : ∀ (E : Env) (R : RegexOps) (vi : Bool) (e : Nat)
        (rec1 : List (String × Value)) (cs1 : List XRule), rsizeL cs1 ≤ N →
        ruleUpdL cs1 (evalStep2 E R vi e rec1 cs1).2.1 = true := by
      intro E R vi e rec1 cs1 h
      cases hvi : vi with
      | true => simp [evalStep2, ruleUpdL_refl]
      | false =>
        cases hec : evalChildren E R [e] cs1 with
        | mk kvs sub =>
          obtain ⟨cs', hcs'⟩ := sub
          have hq := hQ E R [e] cs1 h
          rw [hec] at hq
          simpa [evalStep2, hec] using hq
    refine ⟨hP, hQ, ?_⟩
    intro E R ar dl vi ms
    induction ms with
    | nil => intro cs _; simp [evalMatches, ruleUpdL_refl]
    | cons e ms ihm =>
      intro cs h
      cases hs1 : evalStep1 E R ar dl vi e cs with
      | mk rec1 sub1 =>
        obtain ⟨cs1, h1⟩ := sub1
        cases hs2 : evalStep2 E R vi e rec1 cs1 with
        | mk rec2 sub2 =>
          obtain ⟨cs2, h2⟩ := sub2
          cases hs3 : evalMatches E R ar dl vi ms cs2 with
          | mk list sub3 =>
            obtain ⟨cs3, h3⟩ := sub3
            simp only [evalMatches]
            rw [hs1]; dsimp only
            rw [hs2]; dsimp only
            rw [hs3]; dsimp only
            have g1 : ruleUpdL cs cs1 = true := by
              have := hS1 E R ar dl vi e cs h
              rw [hs1] at this
              simpa using this
            have g2 : ruleUpdL cs1 cs2 = true := by
              have := hS2 E R vi e rec1 cs1 (by rw [h1]; exact h)
              rw [hs2] at this
              simpa using this
            have g3 : ruleUpdL cs2 cs3 = true := by
              have := ihm cs2 (by rw [h2, h1]; exact h)
              rw [hs3] at this
              simpa using this
            exact ruleUpdL_trans (ruleUpdL_trans g1 g2) g3

/-- The directive list coming back from `remapSingleObject` is exactly the
input with every directive normalised (`Key` bracket-rewritten, `nil`
`Format` filled). -/
theorem remapSingleGo_rules (ph : Value → Nat → Value) (obj : Value) (index : Nat) :
    ∀ (rules : List Mapping) (acc res : List (String × Value)) (rules' : List Mapping),
      remapSingleGo ph obj index rules acc = some (res, rules') →
      rules' = rules.map normMapping := by
  intro rules
  induction rules with
  | nil =>
    intro acc res rules' h
    simp only [remapSingleGo, Option.some.injEq, Prod.mk.injEq] at h
    simp [← h.2]
  | cons m rules ih =>
    obtain ⟨ob, key, dst, fmt, isArr, isObj, aom⟩ := m
    intro acc res rules' h
    simp only [remapSingleGo] at h
    split at h
    next => exact absurd h (by simp)
    next acc' hacc' =>
      split at h
      next => exact absurd h (by simp)
      next res2 rules2 hrec =>
        simp only [Option.some.injEq, Prod.mk.injEq] at h
        rw [← h.2]
        have htail := ih acc' res2 rules2 hrec
        rw [htail]
        simp only [List.map_cons, normMapping]
        cases fmt <;> rfl

/-- Claim C5, counterexample: neither function is pure in its arguments —
`applyRule` installs the default transform into the caller's rule (the
rule after the call differs from the rule before), and
`remapSingleObject` rewrites the mapping's `Key` and fills its `nil`
`Format` (the directive after the call differs from the directive
before). -/
theorem C5_arguments_mutated :
    (applyRule envEmpty litRegex [0]
        (.mk "f" "s" "" false false false false "" [] [])).2.1
      ≠ .mk "f" "s" "" false false false false "" [] [] ∧
    remapSingleObject (fun v _ => v) (Value.vObj [])
        [.mk "" "a[0]" "b" none false false []] 0
      ≠ some ([], [.mk "" "a[0]" "b" none false false []]) := by
  constructor
  · have h : (applyRule envEmpty litRegex [0]
        (.mk "f" "s" "" false false false false "" [] [])).2.1
        = .mk "f" "s" "" false false false false "" [] [defaultTransform] := by
      simp [applyRule, envEmpty]
    rw [h]
    simp [defaultTransform]
  · have h : remapSingleObject (fun v _ => v) (Value.vObj [])
        [.mk "" "a[0]" "b" none false false []] 0
        = some ([], [.mk "" "a.0" "b" (some []) false false []]) := by
      simp [remapSingleObject, remapSingleGo, deepCopyMap, recWrites,
        show litReplace "[" "a[0]" "." = "a.0]" from rfl,
        show litReplace "]" "a.0]" "" = "a.0" from rfl,
        show splitDots "a.0" = ["a", "0"] from rfl,
        show gjsonGet (Value.vObj []) ["a", "0"] = none from rfl]
    rw [h]
    simp

/-- Claim C5, amended: the Rule Evaluator and the per-element remapper are
pure except for two idempotent in-place normalisations of their
arguments: `applyRule` leaves every rule field unchanged except that an
empty `Transforms` list becomes the one-element default
protocol-relative transform (recursively, on whichever children get
evaluated), and `remapSingleObject` returns its directives with brackets
in `Key` rewritten to dots and a `nil` `Format` replaced by an empty map,
all other directive fields unchanged. -/
theorem C5_mutation_characterised :
    (∀ (E : Env) (R : RegexOps) (sel : List Nat) (rule : XRule),
      ruleUpd rule (applyRule E R sel rule).2.1 = true) ∧
    (∀ (ph : Value → Nat → Value) (obj : Value) (rules : List Mapping)
      (index : Nat) (res : List (String × Value)) (rules' : List Mapping),
      remapSingleObject ph obj rules index = some (res, rules') →
      rules' = rules.map normMapping) := by
  constructor
  · intro E R sel rule
    exact (updMaster (rsize rule)).1 E R sel rule le_rfl
  · intro ph obj rules index res rules' h
    exact remapSingleGo_rules ph obj index rules [] res rules' h

/-- Witness for C5 at concrete inputs. -/
theorem C5_mutation_characterised_witness :
    ruleUpd (.mk "f" "s" "" false false false false "" [] [])
      (applyRule envEmpty litRegex [0]
        (.mk "f" "s" "" false false false false "" [] [])).2.1 = true ∧
    [Mapping.mk "" "a.0" "b" (some []) false false []]
      = [Mapping.mk "" "a[0]" "b" none false false []].map normMapping := by
  constructor
  · exact C5_mutation_characterised.1 envEmpty litRegex [0] _
  · refine C5_mutation_characterised.2 (fun v _ => v) (Value.vObj [])
      [Mapping.mk "" "a[0]" "b" none false false []] 0 [] _ ?_
    simp [remapSingleObject, remapSingleGo, deepCopyMap, recWrites,
      show litReplace "[" "a[0]" "." = "a.0]" from rfl,
      show litReplace "]" "a.0]" "" = "a.0" from rfl,
      show splitDots "a.0" = ["a", "0"] from rfl,
      show gjsonGet (Value.vObj []) ["a", "0"] = none from rfl]

/-- Serialization of a `Transforms` step (model.go lines 31-35): every
field is emitted under its json tag; the struct carries only json tags, so
`encoding/json`, yaml.v3 and the bson codec all marshal it under the
lowercased field names `match`, `split`, `replace`. -/
def encTransform (t : Transforms) : Value :=
  .vObj [("match", .vStr t.Match), ("split", .vBool t.Split),
         ("replace", .vStr t.Replace)]

/-- One optional struct field under `omitempty`: present exactly when the
field is not at its Go zero value. -/
def optField (b : Bool) (k : String) (v : Value) : List (String × Value) :=
  if b then [(k, v)] else []

/-- The encoded field list of an `ExtractionRule` (model.go lines 19-30),
abstracted over the already-encoded `children`/`transforms` payloads:
`name`, `selector` and `visit` are always present, every other field is
`omitempty`.  The json, yaml and bson tag sets of the struct name the same
keys with the same `omitempty` markers, so this one layout models all
three serializations. -/
def encBody (nm sel attr : String) (mul dl vi fl : Bool) (sd : String)
    (hc : Bool) (cv : Value) (ht : Bool) (tv : Value) : List (String × Value) :=
  [("name", .vStr nm), ("selector", .vStr sel)]
  ++ optField (attr != "") "attr" (.vStr attr)
  ++ optField mul "multiple" (.vBool true)
  ++ optField dl "download" (.vBool true)
  ++ [("visit", .vBool vi)]
  ++ optField fl "flatten" (.vBool true)
  ++ optField (sd != "") "save_dir" (.vStr sd)
  ++ optField hc "children" cv
  ++ optField ht "transforms" tv

mutual

/-- Marshalling of one `ExtractionRule` tree node. -/
def encRule : XRule → Value
  | .mk nm sel attr mul dl vi fl sd ch ts =>
    .vObj (encBody nm sel attr mul dl vi fl sd
      (!ch.isEmpty) (.vList (encRules ch))
      (!ts.isEmpty) (.vList (ts.map encTransform)))

/-- Marshalling of a rule-set (an array of root trees). -/
def encRules : List XRule → List Value
  | [] => []
  | r :: rs => encRule r :: encRules rs

end

/-- Unmarshalling of a string field: a missing key or an explicit null
leaves the Go zero value; a non-string payload is a decode error. -/
def decStr (o : List (String × Value)) (k : String) : Option String :=
  match objLookup o k with
  | none => some ""
  | some .vNull => some ""
  | some (.vStr s) => some s
  | some _ => none

/-- Unmarshalling of a bool field. -/
def decBool (o : List (String × Value)) (k : String) : Option Bool :=
  match objLookup o k with
  | none => some false
  | some .vNull => some false
  | some (.vBool b) => some b
  | some _ => none

/-- Unmarshalling of one `Transforms` step. -/
def decTransform : Value → Option Transforms
  | .vObj o =>
    (decStr o "match").bind fun m =>
    (decBool o "split").bind fun sp =>
    (decStr o "replace").bind fun r =>
    some ⟨m, sp, r⟩
  | _ => none

/-- Unmarshalling of a `[]*Transforms` payload element by element. -/
def decTransformsList : List Value → Option (List Transforms)
  | [] => some []
  | v :: vs =>
    (decTransform v).bind fun t =>
    (decTransformsList vs).bind fun ts => some (t :: ts)

/-- Unmarshalling of the optional `transforms` field: absent or null means
the zero value (a nil slice). -/
def decTransformsOpt : Option Value → Option (List Transforms)
  | none => some []
  | some .vNull => some []
  | some (.vList vs) => decTransformsList vs
  | some _ => none

theorem objLookup_sizeOf_opt (o : List (String × Value)) (k : String) :
    sizeOf (objLookup o k) ≤ sizeOf o := by
  induction o with
  | nil => simp [objLookup]
  | cons p rest ih =>
    obtain ⟨k0, v0⟩ := p
    by_cases hk : k0 = k
    · simp [objLookup, hk]
      omega
    · simp [objLookup, hk]
      omega

mutual

/-- Unmarshalling of one `ExtractionRule` tree node: strings and bools
default to their zero values when absent, `children`/`transforms` default
to nil slices. -/
def decRule : Value → Option XRule
  | .vObj o =>
    (decChildren (objLookup o "children")).bind fun ch =>
    (decTransformsOpt (objLookup o "transforms")).bind fun ts =>
    (decStr o "name").bind fun nm =>
    (decStr o "selector").bind fun sel =>
    (decStr o "attr").bind fun attr =>
    (decBool o "multiple").bind fun mul =>
    (decBool o "download").bind fun dl =>
    (decBool o "visit").bind fun vi =>
    (decBool o "flatten").bind fun fl =>
    (decStr o "save_dir").bind fun sd =>
    some (.mk nm sel attr mul dl vi fl sd ch ts)
  | _ => none
termination_by v => sizeOf v
decreasing_by
  all_goals simp_wf
  · have h1 := objLookup_sizeOf_opt o "children"
    omega

/-- Unmarshalling of the optional `children` field. -/
def decChildren : Option Value → Option (List XRule)
  | none => some []
  | some .vNull => some []
  | some (.vList vs) => decRules vs
  | some _ => none
termination_by v => sizeOf v
decreasing_by
  all_goals simp_wf
  all_goals omega

/-- Unmarshalling of a rule-set array element by element. -/
def decRules : List Value → Option (List XRule)
  | [] => some []
  | v :: vs =>
    (decRule v).bind fun r =>
    (decRules vs).bind fun rs => some (r :: rs)
termination_by vs => sizeOf vs
decreasing_by
  all_goals simp_wf
  all_goals omega

end

theorem decTransform_enc (t : Transforms) :
    decTransform (encTransform t) = some t := by
  obtain ⟨m, sp, r⟩ := t
  simp [encTransform, decTransform, decStr, decBool, objLookup]

theorem decTransformsList_enc (ts : List Transforms) :
    decTransformsList (ts.map encTransform) = some ts := by
  induction ts with
  | nil => rfl
  | cons t ts ih => simp [decTransformsList, decTransform_enc, ih]

theorem objLookup_append (l1 l2 : List (String × Value)) (k : String) :
    objLookup (l1 ++ l2) k =
      match objLookup l1 k with
      | some v => some v
      | none => objLookup l2 k := by
  induction l1 with
  | nil => simp [objLookup]
  | cons p rest ih =>
    obtain ⟨k0, v0⟩ := p
    by_cases hk : k0 = k <;> simp [objLookup, hk, ih]

theorem objLookup_optField_ne (b : Bool) (k k2 : String) (v : Value)
    (h : ¬ k = k2) : objLookup (optField b k v) k2 = none := by
  cases b <;> simp [optField, objLookup, h]

theorem objLookup_optField_self (b : Bool) (k : String) (v : Value) :
    objLookup (optField b k v) k = if b then some v else none := by
  cases b <;> simp [optField, objLookup]

theorem decStr_encBody_name (nm sel attr : String) (mul dl vi fl : Bool)
    (sd : String) (hc : Bool) (cv : Value) (ht : Bool) (tv : Value) :
    decStr (encBody nm sel attr mul dl vi fl sd hc cv ht tv) "name"
      = some nm := by
  simp [decStr, encBody, objLookup_append, objLookup]

theorem decStr_encBody_selector (nm sel attr : String) (mul dl vi fl : Bool)
    (sd : String) (hc : Bool) (cv : Value) (ht : Bool) (tv : Value) :
    decStr (encBody nm sel attr mul dl vi fl sd hc cv ht tv) "selector"
      = some sel := by
  simp [decStr, encBody, objLookup_append, objLookup]

theorem decStr_encBody_attr (nm sel attr : String) (mul dl vi fl : Bool)
    (sd : String) (hc : Bool) (cv : Value) (ht : Bool) (tv : Value) :
    decStr (encBody nm sel attr mul dl vi fl sd hc cv ht tv) "attr"
      = some attr := by
  by_cases ha : attr = "" <;>
    simp [decStr, encBody, objLookup_append, objLookup,
      objLookup_optField_self, objLookup_optField_ne, ha]

theorem decBool_encBody_multiple (nm sel attr : String) (mul dl vi fl : Bool)
    (sd : String) (hc : Bool) (cv : Value) (ht : Bool) (tv : Value) :
    decBool (encBody nm sel attr mul dl vi fl sd hc cv ht tv) "multiple"
      = some mul := by
  cases mul <;>
    simp [decBool, encBody, objLookup_append, objLookup,
      objLookup_optField_self, objLookup_optField_ne]

theorem decBool_encBody_download (nm sel attr : String) (mul dl vi fl : Bool)
    (sd : String) (hc : Bool) (cv : Value) (ht : Bool) (tv : Value) :
    decBool (encBody nm sel attr mul dl vi fl sd hc cv ht tv) "download"
      = some dl := by
  cases dl <;>
    simp [decBool, encBody, objLookup_append, objLookup,
      objLookup_optField_self, objLookup_optField_ne]

theorem decBool_encBody_visit (nm sel attr : String) (mul dl vi fl : Bool)
    (sd : String) (hc : Bool) (cv : Value) (ht : Bool) (tv : Value) :
    decBool (encBody nm sel attr mul dl vi fl sd hc cv ht tv) "visit"
      = some vi := by
  simp [decBool, encBody, objLookup_append, objLookup,
    objLookup_optField_self, objLookup_optField_ne]

theorem decBool_encBody_flatten (nm sel attr : String) (mul dl vi fl : Bool)
    (sd : String) (hc : Bool) (cv : Value) (ht : Bool) (tv : Value) :
    decBool (encBody nm sel attr mul dl vi fl sd hc cv ht tv) "flatten"
      = some fl := by
  cases fl <;>
    simp [decBool, encBody, objLookup_append, objLookup,
      objLookup_optField_self, objLookup_optField_ne]

theorem decStr_encBody_savedir (nm sel attr : String) (mul dl vi fl : Bool)
    (sd : String) (hc : Bool) (cv : Value) (ht : Bool) (tv : Value) :
    decStr (encBody nm sel attr mul dl vi fl sd hc cv ht tv) "save_dir"
      = some sd := by
  by_cases hs : sd = "" <;>
    simp [decStr, encBody, objLookup_append, objLookup,
      objLookup_optField_self, objLookup_optField_ne, hs]

theorem objLookup_encBody_children (nm sel attr : String)
    (mul dl vi fl : Bool) (sd : String) (hc : Bool) (cv : Value) (ht : Bool)
    (tv : Value) :
    objLookup (encBody nm sel attr mul dl vi fl sd hc cv ht tv) "children"
      = if hc then some cv else none := by
  cases hc <;>
    simp [encBody, objLookup_append, objLookup,
      objLookup_optField_self, objLookup_optField_ne]

theorem objLookup_encBody_transforms (nm sel attr : String)
    (mul dl vi fl : Bool) (sd : String) (hc : Bool) (cv : Value) (ht : Bool)
    (tv : Value) :
    objLookup (encBody nm sel attr mul dl vi fl sd hc cv ht tv) "transforms"
      = if ht then some tv else none := by
  cases ht <;>
    simp [encBody, objLookup_append, objLookup,
      objLookup_optField_self, objLookup_optField_ne]

theorem decRule_enc_all (n : Nat) :
    (∀ r : XRule, sizeOf r ≤ n → decRule (encRule r) = some r) ∧
    (∀ rs : List XRule, sizeOf rs ≤ n → decRules (encRules rs) = some rs) := by
  induction n using Nat.strong_induction_on with
  | _ n ih =>
    constructor
    · intro r hr
      obtain ⟨nm, sel, attr, mul, dl, vi, fl, sd, ch, ts⟩ := r
      have hsz : sizeOf ch < n := by
        simp only [XRule.mk.sizeOf_spec] at hr
        omega
      have hch : decRules (encRules ch) = some ch := (ih _ hsz).2 ch le_rfl
      have hc1 : decChildren
          (if (!ch.isEmpty) = true then some (Value.vList (encRules ch))
           else none) = some ch := by
        cases ch with
        | nil => simp [decChildren, List.isEmpty]
        | cons c cs => simp [decChildren, List.isEmpty, hch]
      have hc2 : decTransformsOpt
          (if (!ts.isEmpty) = true
           then some (Value.vList (ts.map encTransform)) else none)
          = some ts := by
        cases ts with
        | nil => simp [decTransformsOpt, List.isEmpty]
        | cons t ts' =>
          have h := decTransformsList_enc (t :: ts')
          simp only [List.map_cons] at h
          simp [decTransformsOpt, List.isEmpty, h]
      simp only [encRule, decRule, objLookup_encBody_children,
        objLookup_encBody_transforms, hc1, hc2,
        decStr_encBody_name, decStr_encBody_selector, decStr_encBody_attr,
        decBool_encBody_multiple, decBool_encBody_download,
        decBool_encBody_visit, decBool_encBody_flatten,
        decStr_encBody_savedir, Option.some_bind]
    · intro rs hrs
      cases rs with
      | nil => simp [encRules, decRules]
      | cons r rs' =>
        have h1 : sizeOf r < n := by
          simp only [List.cons.sizeOf_spec] at hrs
          omega
        have h2 : sizeOf rs' < n := by
          simp only [List.cons.sizeOf_spec] at hrs
          omega
        have g1 : decRule (encRule r) = some r := (ih _ h1).1 r le_rfl
        have g2 : decRules (encRules rs') = some rs' := (ih _ h2).2 rs' le_rfl
        simp [encRules, decRules, g1, g2]

/-- Claim C9: serializing a list of extraction-rule trees and
deserializing back yields rules field for field equal to the originals.
The json, yaml and bson struct tags of `ExtractionRule` (model.go lines
19-30) declare the same key set with the same `omitempty` markers, and
`Transforms` marshals under its lowercased field names in all three
codecs, so the single encoder/decoder pair modelled here covers the JSON,
YAML and keyed-document-store round-trips alike. -/
theorem C9_roundtrip_lossless (rules : List XRule) :
    decRules (encRules rules) = some rules :=
  (decRule_enc_all (sizeOf rules)).2 rules le_rfl

end Extract
